import Mathlib

/-!
Verification development for the dsynth wavetable generator.

Shallow embedding of the two generator scripts
`scripts/generate_wavetables.py` (v1) and `scripts/generate_wavetables_v2.py` (v2).

Modelling conventions:
* Sample values are modelled as exact rationals (`ℚ`) wherever the claim does
  not mention transcendental functions, and as reals (`ℝ`) with `Real.sin` /
  `Real.pi` where the source applies `np.sin`.
* `np.random` draws are modelled as streams: the ambient (never-seeded) global
  generator is a stream `g : ℕ → ℝ` of raw uniform `[0,1)` draws, and
  `np.random.seed s` replaces the upcoming draws by the stream `mt s`, where
  `mt : ℕ → ℕ → ℝ` models the fixed (platform-defined) Mersenne-Twister draw
  sequence for each seed.  `np.random.uniform lo hi` applied to the k-th raw
  draw `u` is `lo + (hi - lo) * u`.
* WAV byte emission is performed by external libraries (`scipy.io.wavfile`,
  the stdlib `wave` module), not by code under `src/`; the container layout is
  therefore modelled from the spec (section 6).
-/

set_option maxHeartbeats 1000000

namespace DSynth

/-- Maximum of the absolute sample values, `np.max(np.abs(samples))`
(v1 `normalize`, line 20; v2 `save_wavetable`, line 19).  The fold default 0
corresponds to the buffers in the scripts always being nonempty. -/
def maxAbs (samples : List ℚ) : ℚ :=
  (samples.map (fun x => |x|)).foldr max 0

/-- The v1 normalizer (`generate_wavetables.py`, lines 18-23):
`if max_val > 0: return samples / max_val; return samples`. -/
def normalize (samples : List ℚ) : List ℚ :=
  if 0 < maxAbs samples then samples.map (fun x => x / maxAbs samples)
  else samples

/-- The v2 normalization step (`generate_wavetables_v2.py`, line 19):
`samples = samples / (np.max(np.abs(samples)) + 1e-10)`. -/
def normalizeV2 (samples : List ℚ) : List ℚ :=
  samples.map (fun x => x / (maxAbs samples + 1 / 10 ^ 10))

/-- The phase array `np.linspace(0, 1, N, endpoint=False)`
(v1 line 34, v2 line 47): N evenly spaced values starting at 0, step `1/N`. -/
def phase (N : ℕ) : List ℚ :=
  (List.range N).map (fun (i : ℕ) => (i : ℚ) / (N : ℚ))

/-- One entry of the phase array at the fixed resolution 2048
(`SAMPLES_PER_CYCLE`), as a real number, for the trigonometric recipes. -/
noncomputable def phaseR (i : ℕ) : ℝ :=
  (i : ℝ) / 2048

/-- Rounding of `np.round`: round half to even (banker's rounding). -/
def npround (x : ℚ) : ℤ :=
  if x - Int.floor x < 1 / 2 then Int.floor x
  else if 1 / 2 < x - Int.floor x then Int.floor x + 1
  else if Int.floor x % 2 = 0 then Int.floor x else Int.floor x + 1

/-- The per-sample quantization map `np.round(x * L) / L`
(v2 line 210 with `L = 4`, v2 line 114 with `L = 32`). -/
def quantize (L : ℕ) (x : ℚ) : ℚ :=
  (npround (x * L) : ℚ) / L

/-- The per-sample map of the v1 "Stairs" waveform (v1 line 101):
`np.floor(x * 8) / 8` -- floor, not round. -/
def stairsStep (x : ℚ) : ℚ :=
  (Int.floor (x * 8) : ℚ) / 8

/-- Assignment `buf[s : s + len] = v` on a Python/numpy array, as a list
operation: positions `s ≤ j < s + len` (clipped to the list length) become
`v`, the rest are unchanged. -/
def setRange (v : ℚ) : List ℚ → ℕ → ℕ → List ℚ
  | [], _, _ => []
  | x :: xs, s + 1, len => x :: setRange v xs s len
  | _ :: xs, 0, len + 1 => v :: setRange v xs 0 len
  | x :: xs, 0, 0 => x :: xs

/-- The loop `for i in range(s, ..., K): buf[i:i+K] = buf[i]` of the v2
sample-and-hold step (v2 lines 207-208), unrolled over `n` iterations starting
at index `s`. -/
def holdFrom (K : ℕ) : List ℚ → ℕ → ℕ → List ℚ
  | b, _, 0 => b
  | b, s, n + 1 => holdFrom K (setRange (b.getD s 0) b s K) (s + K) n

/-- The full v2 sample-and-hold transform (v2 lines 205-208):
`for i in range(0, N, downsample): buf[i:min(i+downsample, N)] = buf[i]`.
The Python range has `ceil(N / K)` iterations. -/
def sampleHold (K : ℕ) (buf : List ℚ) : List ℚ :=
  holdFrom K buf 0 ((buf.length + K - 1) / K)

/-- Control flow of the v1 `__main__` block (v1 lines 181-207): the 20
catalog entries are generated and written strictly in order with no
`try`/`except`; `ok i` tells whether entry `i`'s recipe succeeds.  Returns
the list of entries whose files were written and the index at which an
uncaught exception aborted the run (`none` if it completed). -/
def runScript (ok : ℕ → Bool) : List ℕ → List ℕ × Option ℕ
  | [] => ([], none)
  | i :: rest =>
    if ok i then
      let r := runScript ok rest
      (i :: r.1, r.2)
    else ([], some i)

/-- A full v1 run over the 20 catalog entries, indexed 0..19 in generation
order. -/
def runV1 (ok : ℕ → Bool) : List ℕ × Option ℕ :=
  runScript ok (List.range 20)

/-- The 20 wavetable names, in generation order, exactly as passed to
`save_wavetable` in v1 (`generate_classic` lines 40-91 and `generate_unique`
lines 97-175; v2 uses the same names). -/
def catalogNames : List String :=
  ["01_Pure_Sine", "02_Sawtooth", "03_Square", "04_Triangle", "05_PWM_25",
   "06_PWM_12", "07_PPG_Classic", "08_Hollow", "09_Vocal_Formant",
   "10_Bass_Guitar", "11_Stairs", "12_Fractal", "13_Crystal", "14_Earthquake",
   "15_Laser", "16_Vowel_Morph", "17_Binary", "18_Alien", "19_Breath",
   "20_Harmonic_Decay"]

/-- The output filenames: `save_wavetable` writes `f"{name}.wav"`
(v1 line 29, v2 line 26). -/
def wavFiles : List String :=
  catalogNames.map (fun s => s ++ ".wav")

/-- Little-endian encoding of a 16-bit field. -/
def le16 (n : ℕ) : List ℕ :=
  [n % 256, n / 256 % 256]

/-- Little-endian encoding of a 32-bit field. -/
def le32 (n : ℕ) : List ℕ :=
  [n % 256, n / 256 % 256, n / 256 ^ 2 % 256, n / 256 ^ 3 % 256]

/-- Little-endian decoding of the first four bytes of a list. -/
def de32 (b : List ℕ) : ℕ :=
  b.getD 0 0 + 256 * b.getD 1 0 + 256 ^ 2 * b.getD 2 0 + 256 ^ 3 * b.getD 3 0

/-- Concatenation of per-sample byte chunks. -/
def bytesConcat : List (List ℕ) → List ℕ
  | [] => []
  | b :: rest => b ++ bytesConcat rest

/-- Modelled from the spec: the byte emission of `save_wavetable` is performed
by `scipy.io.wavfile.write` (v1 line 30) / the stdlib `wave` module (v2 lines
28-37), which are external libraries not under `src/`.  The container layout
is taken from spec section 6: a little-endian RIFF/WAVE container with a
top-level size field of `36 + dataBytes`, a 16-byte format chunk declaring
floating-point PCM (format tag 3), 1 channel, sample rate 44100, byte rate
`44100 * 4`, block alignment 4 and 32-bit samples, and a data chunk of
`N * 4` bytes holding the samples as sequential IEEE-754 32-bit floats
(`f32` maps one sample to its four bytes). -/
def wavBytes (f32 : ℚ → List ℕ) (samples : List ℚ) : List ℕ :=
  [82, 73, 70, 70] ++ le32 (36 + 4 * samples.length) ++ [87, 65, 86, 69] ++
  [102, 109, 116, 32] ++ le32 16 ++ le16 3 ++ le16 1 ++ le32 44100 ++
  le32 (44100 * 4) ++ le16 4 ++ le16 32 ++
  [100, 97, 116, 97] ++ le32 (4 * samples.length) ++
  bytesConcat (samples.map f32)

/-- The v1 "Earthquake" contribution (v1 lines 120-122):
`sin(2*pi*p) + 0.3*sin(0.5*pi*p) + 0.1*uniform(-1, 1, N)`, where the uniform
draws come from the ambient global generator `g`, which is never seeded in
v1. -/
noncomputable def earthquakeV1 (g : ℕ → ℝ) (i : ℕ) : ℝ :=
  Real.sin (2 * Real.pi * phaseR i) + 0.3 * Real.sin (0.5 * Real.pi * phaseR i)
    + 0.1 * (-1 + 2 * g i)

/-- The v2 "Fractal" contribution (v2 lines 122-134): after
`np.random.seed(42)`, 64 partials, the h-th (h = 0..63) drawing detune
`uniform(-0.02, 0.02)` (draw `2*h`) and phase `uniform(0, 2*pi)` (draw
`2*h + 1`) from the freshly seeded stream `mt 42`, with pink amplitude
`1/sqrt(h+1)`; then four fixed inharmonic peaks.  The ambient generator state
`_g` is overwritten by the seed call and hence unused. -/
noncomputable def fractalV2 (mt : ℕ → ℕ → ℝ) (_g : ℕ → ℝ) (i : ℕ) : ℝ :=
  (∑ h ∈ Finset.range 64,
    (1 / Real.sqrt ((h : ℝ) + 1)) *
      Real.sin (2 * Real.pi * (((h : ℝ) + 1) * (1 + (-0.02 + 0.04 * mt 42 (2 * h)))) * phaseR i
        + 2 * Real.pi * mt 42 (2 * h + 1)))
  + (([2.3, 3.7, 5.9, 8.1] : List ℝ).map
      (fun r => 0.4 * Real.sin (2 * Real.pi * r * phaseR i))).sum

/-- The v2 "Breath" contribution (v2 lines 235-244): after
`np.random.seed(45)`, 128 random-phase partials with pink amplitudes
(the h-th, h = 0..127, uses draw `h` of the freshly seeded stream `mt 45`),
then five fixed resonant peaks.  The ambient generator state `_g` is
overwritten by the seed call and hence unused. -/
noncomputable def breathV2 (mt : ℕ → ℕ → ℝ) (_g : ℕ → ℝ) (i : ℕ) : ℝ :=
  (∑ h ∈ Finset.range 128,
    (1 / Real.sqrt ((h : ℝ) + 1)) *
      Real.sin (2 * Real.pi * ((h : ℝ) + 1) * phaseR i + 2 * Real.pi * mt 45 h))
  + (([8, 15, 23, 35, 48] : List ℝ).map
      (fun pk => 0.5 * Real.sin (2 * Real.pi * pk * phaseR i))).sum

/-! Helper lemmas about `maxAbs` and the normalizers. -/

theorem maxAbs_nil : maxAbs [] = 0 := rfl

theorem maxAbs_cons (x : ℚ) (s : List ℚ) : maxAbs (x :: s) = max |x| (maxAbs s) := rfl

theorem maxAbs_nonneg (s : List ℚ) : 0 ≤ maxAbs s := by
  induction s with
  | nil => exact le_refl 0
  | cons x t ih => exact ih.trans (le_max_right _ _)

theorem abs_le_maxAbs (s : List ℚ) (x : ℚ) (hx : x ∈ s) : |x| ≤ maxAbs s := by
  induction s with
  | nil => cases hx
  | cons a t ih =>
    rcases List.mem_cons.mp hx with h | h
    · rw [h, maxAbs_cons]
      exact le_max_left _ _
    · exact (ih h).trans (le_max_right _ _)

theorem maxAbs_map_div (s : List ℚ) (c : ℚ) (hc : 0 < c) :
    maxAbs (s.map (fun x => x / c)) = maxAbs s / c := by
  induction s with
  | nil => simp [maxAbs]
  | cons a t ih =>
    rw [List.map_cons, maxAbs_cons, maxAbs_cons, ih, abs_div, abs_of_pos hc,
      max_div_div_right hc.le]

theorem maxAbs_eq_zero_all_zero (s : List ℚ) (h : maxAbs s = 0) (x : ℚ) (hx : x ∈ s) :
    x = 0 := by
  have h1 : |x| ≤ 0 := h ▸ abs_le_maxAbs s x hx
  exact abs_eq_zero.mp (le_antisymm h1 (abs_nonneg x))

theorem maxAbs_normalize (s : List ℚ) (h : 0 < maxAbs s) : maxAbs (normalize s) = 1 := by
  rw [normalize, if_pos h, maxAbs_map_div s _ h, div_self (ne_of_gt h)]

theorem maxAbs_replicate_zero (n : ℕ) : maxAbs (List.replicate n 0) = 0 := by
  induction n with
  | zero => rfl
  | succ m ih =>
    rw [List.replicate_succ, maxAbs_cons, ih, abs_zero, max_self]

/-- C9: the v1 normalizer is idempotent.  When the peak `m = maxAbs s` is
positive, dividing by `m` gives a buffer of peak exactly 1, so the second
pass divides by 1 and is the identity; an all-zero buffer is left unchanged
both times. -/
theorem c9_normalize_idempotent (s : List ℚ) : normalize (normalize s) = normalize s := by
  by_cases h : 0 < maxAbs s
  · have h1 : maxAbs (normalize s) = 1 := maxAbs_normalize s h
    rw [normalize, if_pos (h1 ▸ one_pos), h1]
    simp
  · have h0 : maxAbs s = 0 := le_antisymm (not_lt.mp h) (maxAbs_nonneg s)
    have hs : normalize s = s := by rw [normalize, if_neg h]
    rw [hs, normalize, if_neg h]

/-- C10: the v2 normalization step is total: its divisor `maxAbs s + 1e-10`
is strictly positive for every buffer (never a division by zero), and an
all-zero buffer maps to an all-zero buffer. -/
theorem c10_normalizeV2_total (s : List ℚ) (n : ℕ) :
    0 < maxAbs s + 1 / 10 ^ 10 ∧
    normalizeV2 (List.replicate n 0) = List.replicate n 0 := by
  constructor
  · have := maxAbs_nonneg s
    positivity
  · rw [normalizeV2, maxAbs_replicate_zero, List.map_replicate, zero_div]

/-- C3 counterexample: the v2 normalization step (cited by the claim) does
not divide by `m = maxAbs` but by `m + 1e-10`.  On the buffer `[1e-10]`
(whose peak `m = 1e-10` is positive) it returns `[1/2]`: the sample is not
divided by `m` (that would give `[1]`), and the resulting peak is `1/2`,
nowhere near 1. -/
theorem c3_counterexample :
    0 < maxAbs [(1 : ℚ) / 10 ^ 10] ∧
    normalizeV2 [(1 : ℚ) / 10 ^ 10] = [1 / 2] ∧
    maxAbs (normalizeV2 [(1 : ℚ) / 10 ^ 10]) = 1 / 2 ∧
    normalizeV2 [(1 : ℚ) / 10 ^ 10] ≠
      [(1 : ℚ) / 10 ^ 10 / maxAbs [(1 : ℚ) / 10 ^ 10]] := by
  have hm : maxAbs [(1 : ℚ) / 10 ^ 10] = 1 / 10 ^ 10 := by
    rw [maxAbs_cons, maxAbs_nil]
    norm_num [max_def]
  have hv : normalizeV2 [(1 : ℚ) / 10 ^ 10] = [1 / 2] := by
    rw [normalizeV2, hm, List.map_cons, List.map_nil]
    norm_num
  refine ⟨by rw [hm]; norm_num, hv, ?_, ?_⟩
  · rw [hv, maxAbs_cons, maxAbs_nil]
    norm_num [max_def]
  · rw [hv, hm]
    simp only [ne_eq, List.cons.injEq, and_true]
    norm_num

/-- C3 amended: the v1 normalizer `normalize` behaves exactly as the claim
states (divide by `m` when `m > 0`, making the peak exactly 1; all-zero
buffers unchanged).  The v2 normalization step divides by `m + 1e-10`
instead, so its resulting peak is `m / (m + 1e-10)`: strictly below 1 and
within tolerance of 1 only when `m` is not tiny (for instance `m ≥ 1e-5`);
an all-zero buffer is still returned unchanged. -/
theorem c3_amended (s : List ℚ) :
    (0 < maxAbs s →
      normalize s = s.map (fun x => x / maxAbs s) ∧ maxAbs (normalize s) = 1) ∧
    (maxAbs s = 0 → normalize s = s) ∧
    (1 / 10 ^ 5 ≤ maxAbs s →
      1 - 1 / 10 ^ 5 ≤ maxAbs (normalizeV2 s) ∧ maxAbs (normalizeV2 s) < 1) ∧
    (maxAbs s = 0 → normalizeV2 s = s) := by
  have hm := maxAbs_nonneg s
  have hd : 0 < maxAbs s + 1 / 10 ^ 10 := by positivity
  have heq : maxAbs (normalizeV2 s) = maxAbs s / (maxAbs s + 1 / 10 ^ 10) :=
    maxAbs_map_div s _ hd
  refine ⟨fun h => ⟨if_pos h, maxAbs_normalize s h⟩,
    fun h0 => by rw [normalize, if_neg (by rw [h0]; exact lt_irrefl 0)],
    fun h5 => ⟨?_, ?_⟩, fun h0 => ?_⟩
  · rw [heq, le_div_iff₀ hd]
    nlinarith
  · rw [heq]
    exact (div_lt_one hd).mpr (by linarith)
  · have hall : ∀ x ∈ s, x / (maxAbs s + 1 / 10 ^ 10) = x := fun x hx => by
      rw [maxAbs_eq_zero_all_zero s h0 x hx, zero_div]
    rw [normalizeV2, List.map_congr_left hall]
    exact List.map_id' s

/-- C3 amended witness at the buffers `[1/2, -1]` (peak 1) and `[0, 0]`. -/
theorem c3_amended_witness :
    (normalize [(1 : ℚ) / 2, -1] =
        [(1 : ℚ) / 2, -1].map (fun x => x / maxAbs [(1 : ℚ) / 2, -1]) ∧
      maxAbs (normalize [(1 : ℚ) / 2, -1]) = 1) ∧
    normalize [(0 : ℚ), 0] = [(0 : ℚ), 0] ∧
    (1 - 1 / 10 ^ 5 ≤ maxAbs (normalizeV2 [(1 : ℚ) / 2, -1]) ∧
      maxAbs (normalizeV2 [(1 : ℚ) / 2, -1]) < 1) ∧
    normalizeV2 [(0 : ℚ), 0] = [(0 : ℚ), 0] := by
  have hm : maxAbs [(1 : ℚ) / 2, -1] = 1 := by
    rw [maxAbs_cons, maxAbs_cons, maxAbs_nil,
      (by norm_num : |(-1 : ℚ)| = 1), (by norm_num : |(1 : ℚ) / 2| = 1 / 2),
      max_eq_left (by norm_num : (0 : ℚ) ≤ 1),
      max_eq_right (by norm_num : (1 : ℚ) / 2 ≤ 1)]
  have hz : maxAbs [(0 : ℚ), 0] = 0 := by
    rw [maxAbs_cons, maxAbs_cons, maxAbs_nil]
    simp
  exact ⟨(c3_amended [(1 : ℚ) / 2, -1]).1 (by rw [hm]; norm_num),
    (c3_amended [(0 : ℚ), 0]).2.1 hz,
    (c3_amended [(1 : ℚ) / 2, -1]).2.2.1 (by rw [hm]; norm_num),
    (c3_amended [(0 : ℚ), 0]).2.2.2 hz⟩

/-- C7: for every positive `N`, the phase sequence has length `N`, starts at
0, its `i`-th element is `i / N`, and every element is strictly below 1. -/
theorem c7_phaseclock (N : ℕ) (hN : 0 < N) :
    (phase N).length = N ∧
    (phase N).getD 0 0 = 0 ∧
    (∀ i, i < N → (phase N).getD i 0 = (i : ℚ) / N) ∧
    (∀ x ∈ phase N, x < 1) := by
  have hlen : (phase N).length = N := by
    rw [phase, List.length_map, List.length_range]
  have hget : ∀ i, i < N → (phase N).getD i 0 = (i : ℚ) / N := by
    intro i hi
    rw [phase, List.getD_eq_getElem?_getD, List.getElem?_map, List.getElem?_range hi]
    rfl
  refine ⟨hlen, ?_, hget, ?_⟩
  · rw [hget 0 hN, Nat.cast_zero, zero_div]
  · intro x hx
    rw [phase, List.mem_map] at hx
    obtain ⟨i, hi, rfl⟩ := hx
    rw [List.mem_range] at hi
    rw [div_lt_one (by exact_mod_cast hN)]
    exact_mod_cast hi

/-- C7 witness at `N = 4`. -/
theorem c7_phaseclock_witness :
    (phase 4).length = 4 ∧
    (phase 4).getD 0 0 = 0 ∧
    (∀ i, i < 4 → (phase 4).getD i 0 = (i : ℚ) / 4) ∧
    (∀ x ∈ phase 4, x < 1) :=
  c7_phaseclock 4 (by decide)

/-- C5: a complete run writes exactly 20 files named
`{two-digit-index}_{DisplayName}.wav`; the two-digit index codes are
contiguous from the catalog's starting index 1 (01, 02, ..., 20), with no
gaps, no duplicates, and no filename collisions. -/
theorem c5_catalog :
    wavFiles.length = 20 ∧
    wavFiles = catalogNames.map (fun s => s ++ ".wav") ∧
    wavFiles.Nodup ∧
    catalogNames.map (fun s => s.data.take 3) =
      (List.range 20).map
        (fun i => [Nat.digitChar ((i + 1) / 10), Nat.digitChar ((i + 1) % 10), '_']) ∧
    (catalogNames.map (fun s => s.data.take 2)).Nodup ∧
    (∀ f ∈ wavFiles, f.data.drop (f.data.length - 4) = ['.', 'w', 'a', 'v']) :=
  ⟨by decide, rfl, by decide, by decide, by decide, by decide⟩

/-- C4 counterexample: in the v1 `__main__` block there is no `try`/`except`,
so when entry 13's recipe fails the run aborts at entry 13: only the 13
preceding files (entries 0-12) are written -- not the 19 other files -- and
no failure count is reported (the exception simply propagates, modelled by
`some 13`). -/
theorem c4_counterexample :
    runV1 (fun i => i != 13) = (List.range 13, some 13) ∧
    (List.range 13).length = 13 ∧
    14 ∉ (runV1 (fun i => i != 13)).1 ∧
    (runV1 (fun i => i != 13)).1.length ≠ 19 := by
  decide

/-- C4 amended: per-entry errors are not caught anywhere: if entry `k`
(0 ≤ k < 20) is the only failing entry, the run writes exactly the files of
the entries before `k`, aborts at `k` with an uncaught exception, and the
entries after `k` are never processed. -/
theorem c4_amended (k : ℕ) (hk : k < 20) :
    runV1 (fun i => i != k) = (List.range k, some k) := by
  revert hk
  revert k
  decide

/-- C4 amended witness at the failing entry 13. -/
theorem c4_amended_witness :
    runV1 (fun i => i != 13) = (List.range 13, some 13) :=
  c4_amended 13 (by decide)

/-! Helper lemmas for the quantizer. -/

theorem le_npround (x : ℚ) : x - 1 / 2 ≤ (npround x : ℚ) := by
  have h1 : ((Int.floor x : ℤ) : ℚ) ≤ x := Int.floor_le x
  have h2 : x < ((Int.floor x : ℤ) : ℚ) + 1 := Int.lt_floor_add_one x
  rw [npround]
  split_ifs with ha hb hc
  · linarith
  · push_cast
    linarith
  · linarith
  · push_cast
    linarith

theorem npround_le (x : ℚ) : (npround x : ℚ) ≤ x + 1 / 2 := by
  have h1 : ((Int.floor x : ℤ) : ℚ) ≤ x := Int.floor_le x
  have h2 : x < ((Int.floor x : ℤ) : ℚ) + 1 := Int.lt_floor_add_one x
  rw [npround]
  split_ifs with ha hb hc
  · linarith
  · push_cast
    linarith
  · linarith
  · push_cast
    linarith

/-- C6 counterexample: the v1 "Stairs" quantization step (v1 line 101) uses
`np.floor`, not `np.round`.  At the sample `x = 0.99` it produces `7/8`,
while `round(x * 8) / 8` is `1`; `7/8` is not the nearest quantization
level (it is `1/16 + 1/40` away, `1` only `1/100`). -/
theorem c6_counterexample :
    stairsStep (99 / 100) = 7 / 8 ∧
    (npround ((99 : ℚ) / 100 * 8) : ℚ) / 8 = 1 ∧
    stairsStep (99 / 100) ≠ (npround ((99 : ℚ) / 100 * 8) : ℚ) / 8 := by
  have hf : Int.floor ((99 : ℚ) / 100 * 8) = 7 := by
    rw [Int.floor_eq_iff]
    constructor
    · push_cast
      norm_num
    · push_cast
      norm_num
  have hs : stairsStep (99 / 100) = 7 / 8 := by
    show ((Int.floor ((99 : ℚ) / 100 * 8) : ℤ) : ℚ) / 8 = 7 / 8
    rw [hf]
    norm_num
  have hr : npround ((99 : ℚ) / 100 * 8) = 8 := by
    rw [npround, hf]
    rw [if_neg (by push_cast; norm_num), if_pos (by push_cast; norm_num)]
    decide
  refine ⟨hs, by rw [hr]; norm_num, ?_⟩
  rw [hs, hr]
  norm_num

/-- C6 amended: the round-based quantizer of v2 (`np.round(x * L) / L`, with
round-half-to-even) snaps every sample in `[-1, 1]` to one of the `2L + 1`
equally spaced levels `k / L`, `-L ≤ k ≤ L`; in particular with
`levelCount = 4` the output is one of the nine values `{-1, -3/4, ..., 1}`.
The v1 "Stairs" step instead uses `floor(x * 8) / 8`, which snaps downward,
not to the nearest level. -/
theorem c6_amended :
    (∀ L : ℕ, 0 < L → ∀ x : ℚ, -1 ≤ x → x ≤ 1 →
      ∃ k : ℤ, -(L : ℤ) ≤ k ∧ k ≤ (L : ℤ) ∧ quantize L x = (k : ℚ) / L) ∧
    (∀ x : ℚ, -1 ≤ x → x ≤ 1 →
      quantize 4 x ∈ ([-1, -3/4, -1/2, -1/4, 0, 1/4, 1/2, 3/4, 1] : List ℚ)) := by
  have hgen : ∀ L : ℕ, 0 < L → ∀ x : ℚ, -1 ≤ x → x ≤ 1 →
      ∃ k : ℤ, -(L : ℤ) ≤ k ∧ k ≤ (L : ℤ) ∧ quantize L x = (k : ℚ) / L := by
    intro L hL x hx1 hx2
    have hL' : (0 : ℚ) ≤ (L : ℚ) := by positivity
    have hup : x * L ≤ L := by nlinarith
    have hlo : -(L : ℚ) ≤ x * L := by nlinarith
    have h1 : (npround (x * L) : ℚ) ≤ x * L + 1 / 2 := npround_le _
    have h2 : x * L - 1 / 2 ≤ (npround (x * L) : ℚ) := le_npround _
    refine ⟨npround (x * L), ?_, ?_, rfl⟩
    · have : -((L : ℤ) : ℚ) - 1 < (npround (x * L) : ℚ) := by push_cast; linarith
      have h3 : -(L : ℤ) - 1 < npround (x * L) := by exact_mod_cast this
      omega
    · have : (npround (x * L) : ℚ) < ((L : ℤ) : ℚ) + 1 := by push_cast; linarith
      have h3 : npround (x * L) < (L : ℤ) + 1 := by exact_mod_cast this
      omega
  refine ⟨hgen, fun x hx1 hx2 => ?_⟩
  obtain ⟨k, hk1, hk2, hk3⟩ := hgen 4 (by norm_num) x hx1 hx2
  rw [hk3]
  have hk1' : -4 ≤ k := by exact_mod_cast hk1
  have hk2' : k ≤ 4 := by exact_mod_cast hk2
  interval_cases k <;> norm_num [List.mem_cons]

/-- C6 amended witness at `L = 4`, `x = 3/8` (which rounds to `1/2`). -/
theorem c6_amended_witness :
    (∃ k : ℤ, -((4 : ℕ) : ℤ) ≤ k ∧ k ≤ ((4 : ℕ) : ℤ) ∧
      quantize 4 (3 / 8) = (k : ℚ) / (4 : ℕ)) ∧
    quantize 4 (3 / 8) ∈ ([-1, -3/4, -1/2, -1/4, 0, 1/4, 1/2, 3/4, 1] : List ℚ) :=
  ⟨c6_amended.1 4 (by norm_num) (3 / 8) (by norm_num) (by norm_num),
   c6_amended.2 (3 / 8) (by norm_num) (by norm_num)⟩

/-- C1 counterexample: the v1 "Earthquake" noise contribution draws from the
never-seeded ambient global generator, so it is not a deterministic function
of any declared `(seed, bandCount, amplitudeLaw)`: two runs whose ambient
generators produce different raw draws (here the constant streams 0 and 1)
give different sample values already at index 0. -/
theorem c1_counterexample :
    earthquakeV1 (fun _ => 0) 0 ≠ earthquakeV1 (fun _ => 1) 0 := by
  have hp : phaseR 0 = 0 := by rw [phaseR, Nat.cast_zero, zero_div]
  simp only [earthquakeV1, hp, mul_zero, Real.sin_zero]
  norm_num

/-- C1 amended: in v2 the "Fractal" and "Breath" noise spectra reseed the
global generator immediately before drawing (seeds 42 and 45), so their
contributions depend only on the seeded draw streams `mt 42` / `mt 45` --
identical across runs and independent of the ambient generator state.  In v1
the "Earthquake" and "Breath" noise draws come from the never-seeded ambient
generator (see the counterexample), and v1 "Fractal" / v2 "Earthquake" use
no randomness at all. -/
theorem c1_amended (mt mt' : ℕ → ℕ → ℝ) (g g' : ℕ → ℝ) (i : ℕ)
    (h42 : mt 42 = mt' 42) (h45 : mt 45 = mt' 45) :
    fractalV2 mt g i = fractalV2 mt' g' i ∧ breathV2 mt g i = breathV2 mt' g' i := by
  constructor
  · simp only [fractalV2, h42]
  · simp only [breathV2, h45]

/-- C1 amended witness: two runs with equal seeded streams but different
ambient generator states agree. -/
theorem c1_amended_witness :
    fractalV2 (fun _ _ => 0) (fun _ => 0) 0 = fractalV2 (fun _ _ => 0) (fun _ => 1) 0 ∧
    breathV2 (fun _ _ => 0) (fun _ => 0) 0 = breathV2 (fun _ _ => 0) (fun _ => 1) 0 :=
  c1_amended (fun _ _ => 0) (fun _ _ => 0) (fun _ => 0) (fun _ => 1) 0 rfl rfl

/-! Helper lemmas for the WAV container. -/

theorem bytesConcat_length (f : ℚ → List ℕ) (hf : ∀ x, (f x).length = 4) (s : List ℚ) :
    (bytesConcat (s.map f)).length = 4 * s.length := by
  induction s with
  | nil => rfl
  | cons a t ih =>
    rw [List.map_cons]
    simp only [bytesConcat]
    rw [List.length_append, hf a, ih, List.length_cons]
    ring

theorem de32_le32_append (n : ℕ) (t : List ℕ) (hn : n < 2 ^ 32) :
    de32 (le32 n ++ t) = n := by
  simp only [le32, List.cons_append, de32, List.getD_cons_zero, List.getD_cons_succ]
  omega

/-- C2: layout of the encoded container (modelled from spec section 6, since
the byte emission is done by external libraries): for a buffer of `N`
samples the output is 44 header bytes followed by the `N * 4` data bytes;
the top-level size field decodes to `36 + dataBytes`; the format chunk
declares format tag 3 (floating-point PCM), 1 channel, sample rate 44100,
byte rate `44100 * 4`, block alignment 4 and 32-bit samples; and the data
chunk is exactly the `N` four-byte sample encodings in order. -/
theorem c2_wav_layout (f32 : ℚ → List ℕ) (s : List ℚ)
    (hf : ∀ x, (f32 x).length = 4) (hN : 36 + 4 * s.length < 2 ^ 32) :
    (wavBytes f32 s).length = 44 + 4 * s.length ∧
    (wavBytes f32 s).take 4 = [82, 73, 70, 70] ∧
    de32 ((wavBytes f32 s).drop 4) = 36 + 4 * s.length ∧
    ((wavBytes f32 s).drop 8).take 4 = [87, 65, 86, 69] ∧
    ((wavBytes f32 s).drop 20).take 2 = le16 3 ∧
    ((wavBytes f32 s).drop 22).take 2 = le16 1 ∧
    de32 ((wavBytes f32 s).drop 24) = 44100 ∧
    de32 ((wavBytes f32 s).drop 28) = 44100 * 4 ∧
    ((wavBytes f32 s).drop 32).take 2 = le16 4 ∧
    ((wavBytes f32 s).drop 34).take 2 = le16 32 ∧
    ((wavBytes f32 s).drop 36).take 4 = [100, 97, 116, 97] ∧
    de32 ((wavBytes f32 s).drop 40) = 4 * s.length ∧
    (wavBytes f32 s).drop 44 = bytesConcat (s.map f32) ∧
    ((wavBytes f32 s).drop 44).length = 4 * s.length := by
  have hb := bytesConcat_length f32 hf s
  have hw : wavBytes f32 s =
      82 :: 73 :: 70 :: 70 ::
      (36 + 4 * s.length) % 256 :: (36 + 4 * s.length) / 256 % 256 ::
      (36 + 4 * s.length) / 256 ^ 2 % 256 :: (36 + 4 * s.length) / 256 ^ 3 % 256 ::
      87 :: 65 :: 86 :: 69 ::
      102 :: 109 :: 116 :: 32 ::
      16 :: 0 :: 0 :: 0 ::
      3 :: 0 :: 1 :: 0 ::
      68 :: 172 :: 0 :: 0 ::
      16 :: 177 :: 2 :: 0 ::
      4 :: 0 :: 32 :: 0 ::
      100 :: 97 :: 116 :: 97 ::
      (4 * s.length) % 256 :: (4 * s.length) / 256 % 256 ::
      (4 * s.length) / 256 ^ 2 % 256 :: (4 * s.length) / 256 ^ 3 % 256 ::
      bytesConcat (s.map f32) := by
    simp only [wavBytes, le32, le16, List.cons_append, List.nil_append]
    norm_num
  rw [hw]
  refine ⟨?_, rfl, ?_, rfl, rfl, rfl, ?_, ?_, rfl, rfl, rfl, ?_, ?_, ?_⟩
  · simp only [List.length_cons, hb]
    omega
  · simp only [List.drop_succ_cons, List.drop_zero, de32,
      List.getD_cons_zero, List.getD_cons_succ]
    omega
  · simp only [List.drop_succ_cons, List.drop_zero, de32,
      List.getD_cons_zero, List.getD_cons_succ]
    norm_num
  · simp only [List.drop_succ_cons, List.drop_zero, de32,
      List.getD_cons_zero, List.getD_cons_succ]
    norm_num
  · simp only [List.drop_succ_cons, List.drop_zero, de32,
      List.getD_cons_zero, List.getD_cons_succ]
    omega
  · simp only [List.drop_succ_cons, List.drop_zero]
  · simp only [List.drop_succ_cons, List.drop_zero, hb]

/-- C2 witness at the one-sample buffer `[1/2]` with a stub four-byte
encoding. -/
theorem c2_wav_layout_witness :
    (∀ x : ℚ, ((fun _ : ℚ => [0, 0, 0, 0]) x).length = 4) ∧
    36 + 4 * ([(1 : ℚ) / 2]).length < 2 ^ 32 ∧
    ((wavBytes (fun _ : ℚ => [0, 0, 0, 0]) [(1 : ℚ) / 2]).length =
      44 + 4 * ([(1 : ℚ) / 2]).length ∧
    (wavBytes (fun _ : ℚ => [0, 0, 0, 0]) [(1 : ℚ) / 2]).take 4 = [82, 73, 70, 70] ∧
    de32 ((wavBytes (fun _ : ℚ => [0, 0, 0, 0]) [(1 : ℚ) / 2]).drop 4) =
      36 + 4 * ([(1 : ℚ) / 2]).length ∧
    ((wavBytes (fun _ : ℚ => [0, 0, 0, 0]) [(1 : ℚ) / 2]).drop 8).take 4 =
      [87, 65, 86, 69] ∧
    ((wavBytes (fun _ : ℚ => [0, 0, 0, 0]) [(1 : ℚ) / 2]).drop 20).take 2 = le16 3 ∧
    ((wavBytes (fun _ : ℚ => [0, 0, 0, 0]) [(1 : ℚ) / 2]).drop 22).take 2 = le16 1 ∧
    de32 ((wavBytes (fun _ : ℚ => [0, 0, 0, 0]) [(1 : ℚ) / 2]).drop 24) = 44100 ∧
    de32 ((wavBytes (fun _ : ℚ => [0, 0, 0, 0]) [(1 : ℚ) / 2]).drop 28) = 44100 * 4 ∧
    ((wavBytes (fun _ : ℚ => [0, 0, 0, 0]) [(1 : ℚ) / 2]).drop 32).take 2 = le16 4 ∧
    ((wavBytes (fun _ : ℚ => [0, 0, 0, 0]) [(1 : ℚ) / 2]).drop 34).take 2 = le16 32 ∧
    ((wavBytes (fun _ : ℚ => [0, 0, 0, 0]) [(1 : ℚ) / 2]).drop 36).take 4 =
      [100, 97, 116, 97] ∧
    de32 ((wavBytes (fun _ : ℚ => [0, 0, 0, 0]) [(1 : ℚ) / 2]).drop 40) =
      4 * ([(1 : ℚ) / 2]).length ∧
    (wavBytes (fun _ : ℚ => [0, 0, 0, 0]) [(1 : ℚ) / 2]).drop 44 =
      bytesConcat (([(1 : ℚ) / 2]).map (fun _ : ℚ => [0, 0, 0, 0])) ∧
    ((wavBytes (fun _ : ℚ => [0, 0, 0, 0]) [(1 : ℚ) / 2]).drop 44).length =
      4 * ([(1 : ℚ) / 2]).length) :=
  ⟨fun _ => rfl, by norm_num,
   c2_wav_layout (fun _ : ℚ => [0, 0, 0, 0]) [(1 : ℚ) / 2] (fun _ => rfl) (by norm_num)⟩

/-! Helper lemmas for the sample-and-hold transform. -/

theorem setRange_length (v : ℚ) (b : List ℚ) (s len : ℕ) :
    (setRange v b s len).length = b.length := by
  induction b generalizing s len with
  | nil => rfl
  | cons x xs ih =>
    cases s with
    | zero =>
      cases len with
      | zero => rfl
      | succ m => simp only [setRange, List.length_cons, ih]
    | succ t => simp only [setRange, List.length_cons, ih]

theorem setRange_getD (v : ℚ) (b : List ℚ) (s len j : ℕ) :
    (setRange v b s len).getD j 0 =
      if s ≤ j ∧ j < s + len ∧ j < b.length then v else b.getD j 0 := by
  induction b generalizing s len j with
  | nil =>
    have hng : ¬ (s ≤ j ∧ j < s + len ∧ j < ([] : List ℚ).length) := by
      simp only [List.length_nil]
      omega
    simp only [setRange, if_neg hng]
  | cons x xs ih =>
    cases s with
    | zero =>
      cases len with
      | zero =>
        have hng : ¬ (0 ≤ j ∧ j < 0 + 0 ∧ j < (x :: xs).length) := by omega
        simp only [setRange, if_neg hng]
      | succ m =>
        cases j with
        | zero =>
          have hps : 0 ≤ 0 ∧ 0 < 0 + (m + 1) ∧ 0 < (x :: xs).length := by
            simp only [List.length_cons]
            omega
          simp only [setRange, List.getD_cons_zero, if_pos hps]
        | succ i =>
          simp only [setRange, List.getD_cons_succ, ih]
          have hiff : (0 ≤ i ∧ i < 0 + m ∧ i < xs.length) ↔
              (0 ≤ i + 1 ∧ i + 1 < 0 + (m + 1) ∧ i + 1 < (x :: xs).length) := by
            simp only [List.length_cons]
            omega
          by_cases h : 0 ≤ i ∧ i < 0 + m ∧ i < xs.length
          · rw [if_pos h, if_pos (hiff.mp h)]
          · rw [if_neg h, if_neg (fun hc => h (hiff.mpr hc))]
    | succ t =>
      cases j with
      | zero =>
        have hng : ¬ (t + 1 ≤ 0 ∧ 0 < t + 1 + len ∧ 0 < (x :: xs).length) := by omega
        simp only [setRange, List.getD_cons_zero, if_neg hng]
      | succ i =>
        simp only [setRange, List.getD_cons_succ, ih]
        have hiff : (t ≤ i ∧ i < t + len ∧ i < xs.length) ↔
            (t + 1 ≤ i + 1 ∧ i + 1 < t + 1 + len ∧ i + 1 < (x :: xs).length) := by
          simp only [List.length_cons]
          omega
        by_cases h : t ≤ i ∧ i < t + len ∧ i < xs.length
        · rw [if_pos h, if_pos (hiff.mp h)]
        · rw [if_neg h, if_neg (fun hc => h (hiff.mpr hc))]

theorem holdFrom_spec (K : ℕ) (b₀ : List ℚ) :
    ∀ n m b, b.length = b₀.length →
      (∀ j, j < m * K → j < b₀.length → b.getD j 0 = b₀.getD (K * (j / K)) 0) →
      (∀ j, m * K ≤ j → b.getD j 0 = b₀.getD j 0) →
      (holdFrom K b (m * K) n).length = b₀.length ∧
      (∀ j, j < (m + n) * K → j < b₀.length →
        (holdFrom K b (m * K) n).getD j 0 = b₀.getD (K * (j / K)) 0) ∧
      (∀ j, (m + n) * K ≤ j → (holdFrom K b (m * K) n).getD j 0 = b₀.getD j 0) := by
  intro n
  induction n with
  | zero =>
    intro m b hlen h1 h2
    simp only [holdFrom]
    exact ⟨hlen, fun j hj hjl => h1 j (by rw [Nat.add_zero] at hj; exact hj) hjl,
      fun j hj => h2 j (by rw [Nat.add_zero] at hj; exact hj)⟩
  | succ n ih =>
    intro m b hlen h1 h2
    have hlen' : (setRange (b.getD (m * K) 0) b (m * K) K).length = b₀.length := by
      rw [setRange_length, hlen]
    have h1' : ∀ j, j < (m + 1) * K → j < b₀.length →
        (setRange (b.getD (m * K) 0) b (m * K) K).getD j 0 =
          b₀.getD (K * (j / K)) 0 := by
      intro j hj hjl
      rw [setRange_getD]
      by_cases hc : m * K ≤ j
      · have hjb : j < b.length := by rw [hlen]; exact hjl
        have hlt : j < m * K + K := by
          rw [Nat.succ_mul] at hj
          exact hj
        rw [if_pos ⟨hc, hlt, hjb⟩, h2 (m * K) (le_refl _),
          Nat.div_eq_of_lt_le hc hj, mul_comm]
      · have hc' : j < m * K := Nat.lt_of_not_le hc
        rw [if_neg (fun hcond => hc hcond.1)]
        exact h1 j hc' hjl
    have h2' : ∀ j, (m + 1) * K ≤ j →
        (setRange (b.getD (m * K) 0) b (m * K) K).getD j 0 = b₀.getD j 0 := by
      intro j hj
      rw [Nat.succ_mul] at hj
      have hng : ¬ (m * K ≤ j ∧ j < m * K + K ∧ j < b.length) := by
        intro hcond
        exact Nat.lt_irrefl _ (Nat.lt_of_lt_of_le hcond.2.1 hj)
      rw [setRange_getD, if_neg hng]
      exact h2 j (Nat.le_trans (Nat.le_add_right _ _) hj)
    have hres := ih (m + 1) (setRange (b.getD (m * K) 0) b (m * K) K) hlen' h1' h2'
    simp only [holdFrom]
    rw [show m * K + K = (m + 1) * K from (Nat.succ_mul m K).symm]
    have hmn : (m + (n + 1)) * K = (m + 1 + n) * K := by ring
    refine ⟨hres.1, ?_, ?_⟩
    · intro j hj hjl
      rw [hmn] at hj
      exact hres.2.1 j hj hjl
    · intro j hj
      rw [hmn] at hj
      exact hres.2.2 j hj

/-- C8: the v2 sample-and-hold step preserves the buffer length, and every
sample at index `j` is replaced by the value of the first sample of its
block, i.e. the original sample at index `K * (j / K)` (the block starts are
`0, K, 2K, ...`). -/
theorem c8_samplehold (K : ℕ) (hK : 0 < K) (buf : List ℚ) :
    (sampleHold K buf).length = buf.length ∧
    ∀ j, j < buf.length → (sampleHold K buf).getD j 0 = buf.getD (K * (j / K)) 0 := by
  have hcover : buf.length ≤ ((buf.length + K - 1) / K) * K := by
    have hdm := Nat.div_add_mod (buf.length + K - 1) K
    have hmlt : (buf.length + K - 1) % K < K := Nat.mod_lt _ hK
    rcases Nat.eq_zero_or_pos buf.length with hz | hp
    · rw [hz]
      exact Nat.zero_le _
    · have h1 : K * ((buf.length + K - 1) / K) + (buf.length + K - 1) % K =
          buf.length + K - 1 := hdm
      have h2 : K * ((buf.length + K - 1) / K) =
          ((buf.length + K - 1) / K) * K := Nat.mul_comm _ _
      omega
  have hspec := holdFrom_spec K buf ((buf.length + K - 1) / K) 0 buf rfl
    (fun j hj _ => absurd hj (by simp))
    (fun j _ => rfl)
  rw [Nat.zero_mul] at hspec
  have hspec' := hspec
  constructor
  · exact hspec'.1
  · intro j hj
    have hjC : j < (0 + (buf.length + K - 1) / K) * K := by
      rw [Nat.zero_add]
      exact Nat.lt_of_lt_of_le hj hcover
    exact hspec'.2.1 j hjC hj

/-- C8 witness at `K = 3` on a seven-sample buffer (blocks 0-2, 3-5, 6). -/
theorem c8_samplehold_witness :
    (sampleHold 3 [(10 : ℚ), 11, 12, 13, 14, 15, 16]).length =
      ([(10 : ℚ), 11, 12, 13, 14, 15, 16]).length ∧
    ∀ j, j < ([(10 : ℚ), 11, 12, 13, 14, 15, 16]).length →
      (sampleHold 3 [(10 : ℚ), 11, 12, 13, 14, 15, 16]).getD j 0 =
        ([(10 : ℚ), 11, 12, 13, 14, 15, 16]).getD (3 * (j / 3)) 0 :=
  c8_samplehold 3 (by decide) [(10 : ℚ), 11, 12, 13, 14, 15, 16]

end DSynth
